import Mathlib

/-!
Verification of the alignment-and-search core of the Interla repository.

This file gives a shallow embedding, in Lean 4, of the core pipeline:
  - `msa.py` : progressive multiple sequence alignment
    (`pairwise_alignment`, `propagate_gaps_to_all`, `msa`),
  - `sampler.py` : the branch-and-bound search
    (`recursive_search`, `sample_tokens`),
  - `gen_vocabulary.py` : the pronounceability cost function
    (`path_pronounciability_weight`),
  - `str_barycenter.py` : the orchestration
    (`HEURISTICS`, `compute_bary`, `string_barycenter`),
  - `assign_spellings_using_barycenter.py` : the per-concept dispatch
    (`compute_token`, embedded as `compute_token_ipa`).

Modelling conventions:
  - Python strings are `List Char` (`Str`); the gap marker is the character
    literal for a hyphen.
  - Python floats are modelled by a linearly ordered additive commutative
    group `α` (instantiated at `ℚ` in the pipeline and at `ℤ` in concrete
    evaluations); the float value `inf` is the `⊤` of `WithTop α`.
  - Python exceptions are the `exc` constructor of `PyResult`; a function
    that cannot raise is given a plain return type.
  - Dictionaries are association lists kept with unique keys
    (insertion-ordered, as Python dicts are).
  - The md5 path hash used as a memo key in `sampler.py` is modelled by the
    path itself (an injective signature).
  - The vowel and consonant sets `IPA_VOWELS` / `IPA_CONSONANTS` of
    `gen_vocabulary.py` are loaded at run time from `output/alphabet.csv`,
    which is not part of the sources; they are therefore parameters
    (`vowels`, `consonants`) of the embedding.
-/

namespace Interla

/-- Python strings as lists of characters. -/
abbrev Str := List Char

/-- Removing every gap marker from a string, as done by
`"".join([c for c in optimal_path if c != "-"])` and by the
`filtered_path` computation in `path_pronounciability_weight`. -/
def stripGaps (s : Str) : Str := s.filter (fun c => c ≠ '-')

/-- Result of a Python call: either a normal return value or a raised
exception carrying its message. -/
inductive PyResult (α : Type) where
  | ok (val : α)
  | exc (msg : String)
deriving DecidableEq

/-- State of the scan loop inside `path_pronounciability_weight`
(`gen_vocabulary.py`): the running counts of consecutive vowels and
consonants and the previously seen vowel. -/
structure ScanSt where
  vcount : Nat
  ccount : Nat
  prevVowel : Option Char
deriving DecidableEq

/-- One iteration of the character loop of `path_pronounciability_weight`:
update the counters for one character and signal a violation (`none`) when
two identical vowels are adjacent, more than two vowels are consecutive, or
more than one consonant is consecutive. -/
def scanStep (vowels consonants : List Char) (st : ScanSt) (c : Char) :
    Option ScanSt :=
  let st' : Option ScanSt :=
    if c ∈ vowels then
      if st.prevVowel = some c then none
      else some ⟨st.vcount + 1, 0, some c⟩
    else if c ∈ consonants then some ⟨0, st.ccount + 1, none⟩
    else some ⟨0, 0, none⟩
  match st' with
  | none => none
  | some s => if s.vcount > 2 ∨ s.ccount > 1 then none else some s

/-- The whole character loop of `path_pronounciability_weight`, run on the
gap-filtered path; `none` means the loop returned `inf`. -/
def scanPath (vowels consonants : List Char) (cs : List Char) : Option ScanSt :=
  cs.foldlM (scanStep vowels consonants) ⟨0, 0, none⟩

/-- Embedding of `path_pronounciability_weight` (`gen_vocabulary.py`,
lines 138-198): `0` for an empty path or an entirely-gap path, `⊤` (inf)
when the gap-filtered path violates a phonotactic rule, and otherwise the
sum of all path weights (including the weights at gap positions, exactly as
`total_weight = sum(path_weights)` does). -/
def path_pronounciability_weight {α : Type} [LinearOrderedAddCommMonoid α]
    (vowels consonants : List Char) (path : Str) (path_weights : List α) :
    WithTop α :=
  if path = [] then 0
  else
    let filtered := path.filter (fun c => c ≠ '-')
    if filtered = [] then 0
    else
      match scanPath vowels consonants filtered with
      | none => ⊤
      | some _ => ((path_weights.sum : α) : WithTop α)

/-- The memoization cache of `recursive_search`: keys are
(position, path signature) and values are (best path, best weight).
The md5 hash of the path is modelled by the path itself. -/
abbrev Memo (α : Type) := List ((Nat × Str) × (Str × WithTop α))

/-- Lookup in the memoization cache (`memo_key in memo`). -/
def memoFind {α : Type} (m : Memo α) (k : Nat × Str) : Option (Str × WithTop α) :=
  match m with
  | [] => none
  | (k', v) :: rest => if k' = k then some v else memoFind rest k

/-- Store into the memoization cache (`memo[memo_key] = result`): replace
the entry when the key is present, otherwise add a new entry (so the number
of entries matches `len(memo)` of the Python dict). -/
def memoInsert {α : Type} (m : Memo α) (k : Nat × Str) (v : Str × WithTop α) :
    Memo α :=
  match m with
  | [] => [(k, v)]
  | (k', v') :: rest =>
      if k' = k then (k, v) :: rest else (k', v') :: memoInsert rest k v

/-- The mutable state threaded through `recursive_search`: the memo dict,
the single-cell `best_weight_so_far`, plus a ghost counter of how many
child candidates have been expanded (it influences nothing and only serves
to observe whether a call expanded children). -/
structure SState (α : Type) where
  memo : Memo α
  best : WithTop α
  expansions : Nat
deriving DecidableEq

/-- The read-only arguments of `recursive_search`. -/
structure SParams (α : Type) where
  tokens : List (List Char)
  token_weights : List (List α)
  get_path_weight : Str → List α → WithTop α
  sorted_indices : List (List Nat)
  min_future_weights : List α
  memo_size_limit : Nat
  depth_limit : Option Nat

/-- The `use_memo` flag of `recursive_search`: memoize unless the path is
at least `depth_limit` long. -/
def useMemo (dl : Option Nat) (pathLen : Nat) : Bool :=
  match dl with
  | none => true
  | some d => decide (pathLen < d)

/-- Fuelled embedding of `recursive_search` (`sampler.py`, lines 43-170).
The fuel only drives structural recursion; `recursive_search` below always
supplies enough of it, so the fuel-0 branch is never reached.  The body
follows the source line by line: memo hit, cache-size short-circuit
(the literal early `return (current_path.copy(), current_weight)`),
bound-based pruning, terminal stage with the all-gap rejection and the
`best_weight_so_far` update, and otherwise the loop over the pre-sorted
candidates of the current position, keeping the strictly best child. -/
def rsF {α : Type} [LinearOrderedAddCommMonoid α] (P : SParams α) :
    Nat → Nat → Str → List α → SState α → (Str × WithTop α) × SState α
  | 0, _, _, _, st => (([], ⊤), st)
  | Nat.succ fuel, position, current_path, current_weights, st =>
    let memo_key : Nat × Str := (position, current_path)
    match memoFind st.memo memo_key with
    | some v => (v, st)
    | none =>
      if P.memo_size_limit ≤ st.memo.length then
        let cw : WithTop α :=
          if current_path = [] then 0
          else P.get_path_weight current_path current_weights
        ((current_path, cw), st)
      else
        let um := useMemo P.depth_limit current_path.length
        let cw : WithTop α :=
          if current_path = [] then 0
          else P.get_path_weight current_path current_weights
        if position < P.min_future_weights.length ∧
            st.best ≤ cw + ((P.min_future_weights.getD position 0 : α) : WithTop α) then
          let res : Str × WithTop α := ([], ⊤)
          (res, { st with memo := if um then memoInsert st.memo memo_key res else st.memo })
        else if P.tokens.length ≤ position then
          if current_path.all (fun c => c = '-') then
            let res : Str × WithTop α := ([], ⊤)
            (res, { st with memo := if um then memoInsert st.memo memo_key res else st.memo })
          else
            let best' := if cw < st.best then cw else st.best
            let res : Str × WithTop α := (current_path, cw)
            ⟨res, { memo := if um then memoInsert st.memo memo_key res else st.memo,
                    best := best', expansions := st.expansions }⟩
        else
          let tri :=
            (P.sorted_indices.getD position []).foldl
              (fun (acc : (Option Str × WithTop α) × SState α) (token_idx : Nat) =>
                let token := (P.tokens.getD position []).getD token_idx '-'
                let tw := (P.token_weights.getD position []).getD token_idx 0
                let r := rsF P fuel (position + 1) (current_path ++ [token])
                  (current_weights ++ [tw])
                  { acc.2 with expansions := acc.2.expansions + 1 }
                ((if r.1.2 < acc.1.2 then (some r.1.1, r.1.2)
                  else (acc.1.1, acc.1.2)), r.2))
              ((none, ⊤), st)
          let res : Str × WithTop α := (tri.1.1.getD [], tri.1.2)
          ⟨res, { tri.2 with
                  memo := if um then memoInsert tri.2.memo memo_key res
                          else tri.2.memo }⟩

/-- Embedding of `recursive_search`: the fuelled body with enough fuel for
all the remaining positions (child calls go from fuel `k+1` and position
`p` to fuel `k` and position `p+1`, and the body recurses only while
`p < len(tokens)`, so fuel is never exhausted). -/
def recursive_search {α : Type} [LinearOrderedAddCommMonoid α] (P : SParams α)
    (position : Nat) (current_path : Str) (current_weights : List α)
    (st : SState α) : (Str × WithTop α) × SState α :=
  rsF P (P.tokens.length - position + 1) position current_path current_weights st

/-- Stable insertion used to model Python's stable `sorted` of token
indices by ascending weight (`sampler.py`, lines 200-205): an index is
placed before the first already-placed index of strictly larger-or-equal
weight, so ties keep their original (increasing) order. -/
def insertAsc {α : Type} [LinearOrder α] [Zero α] (ws : List α) (i : Nat) :
    List Nat → List Nat
  | [] => [i]
  | j :: js =>
      if ws.getD i 0 ≤ ws.getD j 0 then i :: j :: js
      else j :: insertAsc ws i js

/-- The sorted index list for one position:
`sorted(range(len(tokens[position])), key=lambda idx: token_weights[position][idx])`. -/
def sortTokenIndices {α : Type} [LinearOrder α] [Zero α] (n : Nat) (ws : List α) :
    List Nat :=
  (List.range n).foldr (insertAsc ws) []

/-- Python's `min` over a list of weights: `none` models the `ValueError`
raised on an empty sequence; on ties the earliest minimum is kept. -/
def listMin {α : Type} [LinearOrder α] : List α → Option α
  | [] => none
  | x :: rest => some (rest.foldl (fun a b => if b < a then b else a) x)

/-- The `min_future_weights` table: suffix sums of the per-position minima,
with a trailing 0 (`sampler.py`, lines 207-213). -/
def suffixSums {α : Type} [AddCommMonoid α] : List α → List α
  | [] => [0]
  | m :: rest =>
      let r := suffixSums rest
      (m + r.headD 0) :: r

/-- The search phase of `sample_tokens` (`sampler.py`, lines 199-235):
build the sorted index lists and `min_future_weights` and run
`recursive_search` from position 0 with an empty path and fresh state.
Its first component is the `(optimal_path, optimal_weight)` pair. -/
def sampleSearch {α : Type} [LinearOrderedAddCommMonoid α]
    (tokens : List (List Char)) (token_weights : List (List α))
    (get_path_weight : Str → List α → WithTop α)
    (memo_size_limit : Nat) (depth_limit : Option Nat) :
    (Str × WithTop α) × SState α :=
  let sorted_indices := (List.range tokens.length).map
    (fun p => sortTokenIndices (tokens.getD p []).length (token_weights.getD p []))
  let min_future := suffixSums ((token_weights.map listMin).map (fun o => o.getD 0))
  let P : SParams α :=
    ⟨tokens, token_weights, get_path_weight, sorted_indices, min_future,
     memo_size_limit, depth_limit⟩
  recursive_search P 0 [] [] ⟨[], ⊤, 0⟩

/-- Embedding of `sample_tokens` (`sampler.py`, lines 173-241): the two
leading guards (the length assertion and the empty-input early return),
the `min` of each candidate weight list (which raises on an empty list),
the search phase `sampleSearch`, the three trailing assertions, and the
final gap-stripping join. -/
def sample_tokens {α : Type} [LinearOrderedAddCommMonoid α]
    (tokens : List (List Char)) (token_weights : List (List α))
    (get_path_weight : Str → List α → WithTop α)
    (memo_size_limit : Nat) (depth_limit : Option Nat) : PyResult Str :=
  if ¬ tokens.length = token_weights.length then
    .exc "Tokens and token_weights must have the same length"
  else if tokens = [] ∨ tokens.headD [] = [] then .ok []
  else if (token_weights.map listMin).any (fun o => o.isNone) then
    .exc "min() arg is an empty sequence"
  else
    let r := sampleSearch tokens token_weights get_path_weight
      memo_size_limit depth_limit
    if r.1.1 = [] then .exc "No valid path found"
    else if ¬ r.1.1.length = tokens.length then .exc "Expected optimal path length"
    else if ¬ r.1.2 < ⊤ then .exc "No valid path found"
    else .ok (r.1.1.filter (fun c => c ≠ '-'))

/-- The Needleman-Wunsch score matrix of `pairwise_alignment` (`msa.py`,
lines 38-57): `nwScore s1 s2 gp ms mp i j` is the cell `dp[i][j]` built
from the gap penalty `gp`, match score `ms` and mismatch penalty `mp`. -/
def nwScore (s1 s2 : Str) (gp ms mp : Int) : Nat → Nat → Int
  | 0, j => j * gp
  | i + 1, 0 => (i + 1 : Nat) * gp
  | i + 1, j + 1 =>
      max (max (nwScore s1 s2 gp ms mp i j +
                 (if s1.getD i ' ' = s2.getD j ' ' then ms else mp))
               (nwScore s1 s2 gp ms mp i (j + 1) + gp))
          (nwScore s1 s2 gp ms mp (i + 1) j + gp)
  termination_by i j => i + j
  decreasing_by all_goals omega

/-- The traceback loop of `pairwise_alignment` (`msa.py`, lines 59-88),
expressed as recursion from cell `(i, j)` down to `(0, 0)`: prefer the
diagonal move when its score equation holds, then the up move, then the
left move.  The final branch is unreachable: when `j = 0` and `0 < i` the
up-move equation always holds (first column of the matrix). -/
def traceback (s1 s2 : Str) (gp ms mp : Int) (i j : Nat) : Str × Str :=
  if i = 0 ∧ j = 0 then ([], [])
  else if 0 < i ∧ 0 < j ∧ nwScore s1 s2 gp ms mp i j =
      nwScore s1 s2 gp ms mp (i - 1) (j - 1) +
        (if s1.getD (i - 1) ' ' = s2.getD (j - 1) ' ' then ms else mp) then
    ((traceback s1 s2 gp ms mp (i - 1) (j - 1)).1 ++ [s1.getD (i - 1) ' '],
     (traceback s1 s2 gp ms mp (i - 1) (j - 1)).2 ++ [s2.getD (j - 1) ' '])
  else if 0 < i ∧ nwScore s1 s2 gp ms mp i j = nwScore s1 s2 gp ms mp (i - 1) j + gp then
    ((traceback s1 s2 gp ms mp (i - 1) j).1 ++ [s1.getD (i - 1) ' '],
     (traceback s1 s2 gp ms mp (i - 1) j).2 ++ ['-'])
  else if 0 < j then
    ((traceback s1 s2 gp ms mp i (j - 1)).1 ++ ['-'],
     (traceback s1 s2 gp ms mp i (j - 1)).2 ++ [s2.getD (j - 1) ' '])
  else ([], [])
  termination_by i + j
  decreasing_by all_goals omega

/-- Embedding of `pairwise_alignment` (`msa.py`, lines 14-88): fill the
score matrix and trace back from the bottom-right cell. -/
def pairwise_alignment (s1 s2 : Str) (gp ms mp : Int) : Str × Str :=
  traceback s1 s2 gp ms mp s1.length s2.length

/-- The running maximum of sequence lengths, as computed by the
`maxlen_consensus` / `maxlen` loops of `msa` (starting from 0). -/
def maxLen (rows : List Str) : Nat :=
  rows.foldl (fun m s => max m s.length) 0

/-- The characters of one alignment column: `s[i] if i < len(s) else "-"`
for each aligned sequence `s`. -/
def colCharsAt (rows : List Str) (i : Nat) : List Char :=
  rows.map (fun s => s.getD i '-')

/-- The consensus string built inside the `msa` loop (`msa.py`, lines
150-164): for each column, the first non-gap character, or a gap when the
whole column is gaps. -/
def consensusOf (rows : List Str) : Str :=
  (List.range (maxLen rows)).map (fun i =>
    match (colCharsAt rows i).filter (fun c => c ≠ '-') with
    | [] => '-'
    | c :: _ => c)

/-- The per-row effect of `propagate_gaps_to_all` (`msa.py`, lines 91-115).
The source scans the aligned consensus left to right, inserting a gap into
every previously aligned sequence at each position where the consensus has
a gap; scanning with the running insertion index is exactly this zipper
recursion (when the row is exhausted the remaining insertions append at
the end, as Python string slicing does). -/
def propagateRow (a1 : Str) (row : Str) : Str :=
  match a1 with
  | [] => row
  | c :: cs =>
      if c = '-' then '-' :: propagateRow cs row
      else
        match row with
        | [] => propagateRow cs []
        | r :: rs => r :: propagateRow cs rs

/-- Embedding of `propagate_gaps_to_all`: apply the gap insertions of the
aligned consensus to every previously aligned sequence. -/
def propagate_gaps_to_all (rows : List Str) (a1 : Str) : List Str :=
  rows.map (propagateRow a1)

/-- One iteration of the progressive loop of `msa` (`msa.py`, lines
147-183): build the consensus, align it pairwise with the new sequence,
propagate the consensus gaps into all previous rows, append the newly
aligned sequence, and right-pad every row to the common maximum length. -/
def msaStep (gp ms mp : Int) (rows : List Str) (seq : Str) : List Str :=
  let cons := consensusOf rows
  let pa := pairwise_alignment cons seq gp ms mp
  let rows2 := propagate_gaps_to_all rows pa.1 ++ [pa.2]
  let m := maxLen rows2
  rows2.map (fun s => s ++ List.replicate (m - s.length) '-')

/-- Embedding of `msa` (`msa.py`, lines 119-185): start from the first
sequence and fold the progressive step over the rest.  (On an empty input
the source raises an IndexError at `sequences[0]`; that case is modelled
as the empty list and is outside every claim.) -/
def msa (seqs : List Str) (gp ms mp : Int) : List Str :=
  match seqs with
  | [] => []
  | s0 :: rest => rest.foldl (msaStep gp ms mp) [s0]

/-- Adding a weight to a Python `Counter` held as an insertion-ordered
association list: `counter[char] += weight`. -/
def counterAdd (m : List (Char × ℚ)) (c : Char) (w : ℚ) : List (Char × ℚ) :=
  match m with
  | [] => [(c, w)]
  | (c', v) :: rest =>
      if c' = c then (c', v + w) :: rest else (c', v) :: counterAdd rest c w

/-- The weighted counter of one alignment column (`str_barycenter.py`,
lines 111-113): fold `counter[char] += weight` over `zip(chars, weights)`. -/
def buildCounter (chars : List Char) (ws : List ℚ) : List (Char × ℚ) :=
  (chars.zip ws).foldl (fun m p => counterAdd m p.1 p.2) []

/-- Stable insertion by descending weight, modelling Python's
`Counter.most_common` ordering (stable sort by value, descending; ties keep
insertion order). -/
def descInsert (x : Char × ℚ) : List (Char × ℚ) → List (Char × ℚ)
  | [] => [x]
  | y :: ys => if x.2 < y.2 then y :: descInsert x ys else x :: y :: ys

/-- The full `most_common()` list of a counter: the entries sorted by
descending weight, stably. -/
def mostCommon (m : List (Char × ℚ)) : List (Char × ℚ) :=
  m.foldr descInsert []

/-- One level of the candidate-pruning ladder: `some (n, min_val)` is a
Python tuple `(n, min_val)` (truthy), `none` is a falsy entry such as the
`False` that would select the unrestricted branch of `compute_bary`. -/
abbrev Heur := Option (Nat × ℚ)

/-- The heuristic ladder `HEURISTICS` of `str_barycenter.py`, line 59:
`[(3, 0.05), (5, 0.01), (7, 0.0)]`.  Every entry is a truthy tuple. -/
def HEURISTICS : List Heur := [some (3, 1/20), some (5, 1/100), some (7, 0)]

/-- The candidate list of one column as built by `compute_bary`
(`str_barycenter.py`, lines 110-128): under a heuristic `(n, min_val)`,
keep the weightiest entry unconditionally and every further entry of the
top `n` whose aggregated weight exceeds `min_val`, with cost `1 - weight`;
without a heuristic, keep every counter key in insertion order.  The `exc`
value models the IndexError of `most_common[0]` on an empty counter
(unreachable in the pipeline, where every column is non-empty). -/
def columnTokens (h : Heur) (chars : List Char) (ws : List ℚ) :
    PyResult (List Char × List ℚ) :=
  let counter := buildCounter chars ws
  match h with
  | some (n, min_val) =>
      match (mostCommon counter).take n with
      | [] => .exc "list index out of range"
      | top :: rest =>
          .ok (top.1 :: (rest.filter (fun p => min_val < p.2)).map (fun p => p.1),
               (1 - top.2) :: (rest.filter (fun p => min_val < p.2)).map (fun p => 1 - p.2))
  | none => .ok (counter.map (fun p => p.1), counter.map (fun p => 1 - p.2))

/-- The column loop of `compute_bary`: accumulate the per-column candidate
lists and their costs, propagating the exception of any column. -/
def buildCandidates (h : Heur) (cols : List (List Char)) (ws : List ℚ) :
    PyResult (List (List Char) × List (List ℚ)) :=
  match cols with
  | [] => .ok ([], [])
  | chars :: rest =>
      match columnTokens h chars ws with
      | .exc m => .exc m
      | .ok p =>
          match buildCandidates h rest ws with
          | .exc m => .exc m
          | .ok q => .ok (p.1 :: q.1, p.2 :: q.2)

/-- Embedding of the inner `compute_bary` of `string_barycenter`
(`str_barycenter.py`, lines 106-129): build the candidate grid for the
requested heuristic level and run `sample_tokens` on it with the
pronounceability cost function and its default limits. -/
def compute_bary (vowels consonants : List Char) (cols : List (List Char))
    (ws : List ℚ) (h : Heur) : PyResult Str :=
  match buildCandidates h cols ws with
  | .exc m => .exc m
  | .ok p =>
      sample_tokens p.1 p.2 (path_pronounciability_weight vowels consonants)
        1000000 none

/-- The retry loop of `string_barycenter` (`str_barycenter.py`, lines
131-143): try each heuristic level in order, keep the first success, and
fall through to the initial empty string when every level raises. -/
def tryHeuristics (vowels consonants : List Char) (cols : List (List Char))
    (ws : List ℚ) : List Heur → Str
  | [] => []
  | h :: rest =>
      match compute_bary vowels consonants cols ws h with
      | .ok b => b
      | .exc _ => tryHeuristics vowels consonants cols ws rest

/-- The number of columns of `list(zip(*aligned))`: the minimum row
length. -/
def minRowLen (rows : List Str) : Nat :=
  match rows with
  | [] => 0
  | r :: rest => rest.foldl (fun m s => min m s.length) r.length

/-- The transposition `list(zip(*aligned))` of `align_words_list`
(`str_barycenter.py`, line 42): one character list per column, truncated at
the shortest row as `zip` is. -/
def columnsOf (rows : List Str) : List (List Char) :=
  (List.range (minRowLen rows)).map (fun i => rows.map (fun s => s.getD i ' '))

/-- Embedding of `string_barycenter` (`str_barycenter.py`, lines 63-147):
raise on an empty word list; default the weights to 1.0 each, raising when
provided weights mismatch the word count; align the words and transpose to
columns; then run the heuristic ladder, returning the empty string when
every level fails. -/
def string_barycenter (vowels consonants : List Char) (words : List Str)
    (weights : Option (List ℚ)) : PyResult Str :=
  if words = [] then .exc "words cannot be empty"
  else
    match weights with
    | some w =>
        if ¬ w.length = words.length then .exc "weights must have same length as words"
        else .ok (tryHeuristics vowels consonants (columnsOf (msa words (-1) 2 (-1))) w HEURISTICS)
    | none =>
        .ok (tryHeuristics vowels consonants (columnsOf (msa words (-1) 2 (-1)))
              (List.replicate words.length 1) HEURISTICS)

/-- Embedding of the word dispatch of `compute_token`
(`assign_spellings_using_barycenter.py`, lines 44-71), up to the IPA token
(the later IPA-to-orthography conversion is outside the barycenter
operation).  The input is the list of looked-up (word, weight) pairs; empty
words are dropped; zero remaining words give the empty sentinel, a single
word is returned unchanged, and otherwise `string_barycenter` runs with any
exception caught and turned into the empty sentinel.  The function is total
(it never raises), mirroring the `try`/`except` of the source. -/
def compute_token_ipa (vowels consonants : List Char)
    (pairs : List (Str × ℚ)) : Str :=
  let kept := pairs.filter (fun p => p.1 ≠ [])
  let words := kept.map (fun p => p.1)
  let weights := kept.map (fun p => p.2)
  if words.length = 0 then []
  else if words.length = 1 then words.headD []
  else
    match string_barycenter vowels consonants words (some weights) with
    | .ok b => b
    | .exc _ => []

/-! ### Helper lemmas -/

theorem descInsert_perm (x : Char × ℚ) (l : List (Char × ℚ)) :
    (descInsert x l).Perm (x :: l) := by
  induction l with
  | nil => simp [descInsert]
  | cons y ys ih =>
      by_cases h : x.2 < y.2
      · simp only [descInsert, if_pos h]
        exact ((ih.cons y).trans (List.Perm.swap x y ys)).symm.symm
      · simp [descInsert, if_neg h]

theorem mostCommon_perm (m : List (Char × ℚ)) : (mostCommon m).Perm m := by
  induction m with
  | nil => simp [mostCommon]
  | cons x xs ih =>
      have : mostCommon (x :: xs) = descInsert x (mostCommon xs) := rfl
      rw [this]
      exact (descInsert_perm x (mostCommon xs)).trans (ih.cons x)

/-! ### Claim C2 -/

/-- Claim C2: calling the barycenter operation (the per-concept dispatch of
`compute_token`, the orchestrator of §4.4) on an input whose word list is
empty returns the empty/no-consensus sentinel and never raises: the
embedding is a total function and returns the empty string. -/
theorem c2_empty_input_returns_sentinel (vowels consonants : List Char)
    (pairs : List (Str × ℚ))
    (h : (pairs.filter (fun p => p.1 ≠ [])).map (fun p => p.1) = []) :
    compute_token_ipa vowels consonants pairs = [] := by
  simp only [compute_token_ipa]
  rw [h]
  simp

/-- Witness for C2 at the concrete empty input. -/
theorem c2_witness :
    ((([] : List (Str × ℚ)).filter (fun p => p.1 ≠ [])).map (fun p => p.1) = []) ∧
    compute_token_ipa [] [] [] = [] :=
  ⟨rfl, c2_empty_input_returns_sentinel [] [] [] rfl⟩

/-! ### Claim C3 -/

/-- Claim C3: for every word `w` and every weight, the barycenter of the
singleton word list `[w]` is `w` itself, returned unchanged by the
single-word branch of `compute_token` (alignment and search are bypassed:
the result is `w` for every `w`, even one the search would reject). -/
theorem c3_singleton_identity (vowels consonants : List Char)
    (pairs : List (Str × ℚ)) (w : Str)
    (h : (pairs.filter (fun p => p.1 ≠ [])).map (fun p => p.1) = [w]) :
    compute_token_ipa vowels consonants pairs = w := by
  simp only [compute_token_ipa]
  rw [h]
  simp

/-- Witness for C3: the unpronounceable word "bb" with weight 1 is returned
unchanged (evidence that the search is bypassed). -/
theorem c3_witness :
    (((([(['b','b'], (1 : ℚ))]) : List (Str × ℚ)).filter
        (fun p => p.1 ≠ [])).map (fun p => p.1) = [['b','b']]) ∧
    compute_token_ipa [] [] [(['b','b'], (1 : ℚ))] = ['b','b'] :=
  ⟨by decide, c3_singleton_identity [] [] [(['b','b'], (1 : ℚ))] ['b','b'] (by decide)⟩

/-! ### Claim C8 -/

/-- Claim C8 (amended): for a NON-EMPTY word list, calling
`string_barycenter` with a weights list whose length differs from the word
list's length raises the mismatched-weights error, before any alignment or
search (the guard precedes both in the source).  (The original claim, with
no non-emptiness proviso, fails on the empty word list, which triggers the
empty-input error first: see the counterexample.) -/
theorem c8_mismatched_weights_error (vowels consonants : List Char)
    (words : List Str) (w : List ℚ) (h1 : words ≠ [])
    (h2 : ¬ w.length = words.length) :
    string_barycenter vowels consonants words (some w) =
      .exc "weights must have same length as words" := by
  simp [string_barycenter, h1, h2]

/-- Counterexample for C8 as stated: the empty word list with a one-element
weights list has mismatched lengths, yet it raises the empty-words error,
not the mismatched-weights error. -/
theorem c8_counterexample :
    ¬ ([(1 : ℚ)].length = ([] : List Str).length) ∧
    string_barycenter [] [] [] (some [(1 : ℚ)]) = .exc "words cannot be empty" ∧
    string_barycenter [] [] [] (some [(1 : ℚ)]) ≠
      .exc "weights must have same length as words" := by
  refine ⟨by decide, rfl, by decide⟩

/-- Witness for C8 at a concrete non-empty word list. -/
theorem c8_witness :
    ((([['a']] : List Str) ≠ []) ∧ ¬ ([(1 : ℚ), 2].length = ([['a']] : List Str).length)) ∧
    string_barycenter [] [] [['a']] (some [(1 : ℚ), 2]) =
      .exc "weights must have same length as words" :=
  ⟨⟨by decide, by decide⟩,
    c8_mismatched_weights_error [] [] [['a']] [(1 : ℚ), 2] (by decide) (by decide)⟩

/-! ### Claim C4 -/

/-- Claim C4 (amended): the final level of the heuristic ladder is the
top-7 / cutoff-0.0 level `(7, 0.0)` — not an unrestricted level — and it
yields the full candidate set of a column exactly when the column has at
most 7 distinct characters (the 0.0 cutoff drops none of them as long as
every aggregated weight is positive); the candidates it produces are then a
permutation of the column's full counter key list.  (The original claim,
that the final level is the full unrestricted set for every column, fails
on any column with more than 7 distinct characters: see the
counterexample.) -/
theorem c4_final_level_covers_small_columns :
    HEURISTICS.getLastD none = some (7, 0) ∧
    ∀ (chars : List Char) (ws : List ℚ),
      buildCounter chars ws ≠ [] →
      (∀ p ∈ buildCounter chars ws, 0 < p.2) →
      (buildCounter chars ws).length ≤ 7 →
      ∃ cs qs, columnTokens (some (7, 0)) chars ws = .ok (cs, qs) ∧
        cs.Perm ((buildCounter chars ws).map (fun p => p.1)) := by
  refine ⟨rfl, fun chars ws hne hpos hlen => ?_⟩
  have hperm := mostCommon_perm (buildCounter chars ws)
  have hlen7 : (mostCommon (buildCounter chars ws)).length ≤ 7 :=
    hperm.length_eq ▸ hlen
  have htake : (mostCommon (buildCounter chars ws)).take 7 =
      mostCommon (buildCounter chars ws) := List.take_of_length_le hlen7
  cases hmc : mostCommon (buildCounter chars ws) with
  | nil =>
      exact absurd (List.Perm.nil_eq (hmc ▸ hperm)).symm hne
  | cons top rest =>
      have hfil : rest.filter (fun p => (0 : ℚ) < p.2) = rest := by
        rw [List.filter_eq_self]
        intro a ha
        have : a ∈ buildCounter chars ws :=
          (hperm.mem_iff).mp (hmc ▸ List.mem_cons_of_mem top ha)
        exact decide_eq_true (hpos a this)
      refine ⟨top.1 :: (rest.filter (fun p => (0 : ℚ) < p.2)).map (fun p => p.1),
        (1 - top.2) :: (rest.filter (fun p => (0 : ℚ) < p.2)).map (fun p => 1 - p.2),
        ?_, ?_⟩
      · rw [hmc] at htake
        simp only [columnTokens, hmc, htake]
      · rw [hfil]
        have : top.1 :: rest.map (fun p => p.1) =
            (top :: rest).map (fun p => p.1) := rfl
        rw [this, ← hmc]
        exact hperm.map (fun p => p.1)

/-- Witness for C4 at a concrete two-character column with positive
weights. -/
theorem c4_witness :
    (buildCounter ['a','b'] [2, 3] ≠ [] ∧
     (∀ p ∈ buildCounter ['a','b'] [2, 3], 0 < p.2) ∧
     (buildCounter ['a','b'] [2, 3]).length ≤ 7) ∧
    (∃ cs qs, columnTokens (some (7, 0)) ['a','b'] [2, 3] = .ok (cs, qs) ∧
      cs.Perm ((buildCounter ['a','b'] [2, 3]).map (fun p => p.1))) :=
  ⟨⟨by decide, by decide, by decide⟩,
    c4_final_level_covers_small_columns.2 ['a','b'] [2, 3]
      (by decide) (by decide) (by decide)⟩

/-- Counterexample for C4 as stated: every ladder level is a truthy
heuristic tuple (so the unrestricted branch is never selected), and on a
column with 8 distinct characters the final level keeps only 7 of the 8
candidates. -/
theorem c4_counterexample :
    HEURISTICS.all (fun h => h.isSome) = true ∧
    (match columnTokens (HEURISTICS.getLastD none)
        ['a','b','c','d','e','f','g','h'] [1,1,1,1,1,1,1,1] with
      | .ok p => p.1.length
      | .exc _ => 0) = 7 ∧
    ((buildCounter ['a','b','c','d','e','f','g','h'] [1,1,1,1,1,1,1,1]).map
        (fun p => p.1)).length = 8 := by
  refine ⟨rfl, by decide, by decide⟩

/-! ### Claim C9 -/

/-- Claim C9: the cost function `path_pronounciability_weight` returns the
finite cost 0 for an empty path and for a path consisting only of gap
tokens; the rejection of an entirely-gap complete path as infeasible (⊤) is
enforced solely by the terminal-stage check inside `recursive_search` (a
call at the terminal stage with an all-gap path returns the infeasible
result even though the cost function values the path at 0). -/
theorem c9_all_gap_rejection_is_terminal_check {α : Type}
    [LinearOrderedAddCommMonoid α] (vowels consonants : List Char) :
    (∀ (w : List α), path_pronounciability_weight vowels consonants [] w = 0) ∧
    (∀ (path : Str) (w : List α), (∀ c ∈ path, c = '-') →
      path_pronounciability_weight vowels consonants path w = 0) ∧
    (∀ (P : SParams α) (pos : Nat) (path : Str) (wts : List α) (st : SState α),
      memoFind st.memo (pos, path) = none →
      st.memo.length < P.memo_size_limit →
      P.tokens.length ≤ pos →
      (∀ c ∈ path, c = '-') →
      (recursive_search P pos path wts st).1 = ([], ⊤)) := by
  refine ⟨fun w => by simp [path_pronounciability_weight], ?_, ?_⟩
  · intro path w h
    by_cases hnil : path = []
    · simp [path_pronounciability_weight, hnil]
    · have hfil : path.filter (fun c => c ≠ '-') = [] := by
        rw [List.filter_eq_nil_iff]
        intro a ha
        simp [h a ha]
      simp only [path_pronounciability_weight]
      rw [if_neg hnil, hfil]
      simp
  · intro P pos path wts st hmemo hlim hpos hgap
    have hall : path.all (fun c => c = '-') = true := by
      rw [List.all_eq_true]
      intro a ha
      exact decide_eq_true (hgap a ha)
    have hnle : ¬ P.memo_size_limit ≤ st.memo.length := Nat.not_le.mpr hlim
    simp only [recursive_search, Nat.sub_eq_zero_of_le hpos, rsF, hmemo,
      if_neg hnle, if_pos hpos]
    simp only [hall, if_true]
    split <;> split <;> rfl

/-- Witness for C9 at concrete inputs over ℤ: the empty path, the all-gap
path, and a terminal-stage call of `recursive_search` on an all-gap path. -/
theorem c9_witness :
    (path_pronounciability_weight ['a'] ['b'] [] ([] : List ℤ) = 0) ∧
    ((∀ c ∈ ['-','-'], c = '-') ∧
      path_pronounciability_weight ['a'] ['b'] ['-','-'] ([1, 2] : List ℤ) = 0) ∧
    ((memoFind ([] : Memo ℤ) (1, ['-']) = none ∧ (0 : Nat) < 10 ∧ (1 : Nat) ≤ 1) ∧
      (recursive_search
        (⟨[['a']], [[0]], path_pronounciability_weight ['a'] ['b'], [[0]],
          [0, 0], 10, none⟩ : SParams ℤ) 1 ['-'] [0] ⟨[], ⊤, 0⟩).1 = ([], ⊤)) :=
  ⟨(c9_all_gap_rejection_is_terminal_check ['a'] ['b']).1 [],
   ⟨by decide,
    (c9_all_gap_rejection_is_terminal_check ['a'] ['b']).2.1 ['-','-'] [1, 2]
      (by decide)⟩,
   ⟨⟨rfl, by decide, by decide⟩,
    (c9_all_gap_rejection_is_terminal_check ['a'] ['b']).2.2
      (⟨[['a']], [[0]], path_pronounciability_weight ['a'] ['b'], [[0]],
        [0, 0], 10, none⟩ : SParams ℤ) 1 ['-'] [0] ⟨[], ⊤, 0⟩
      rfl (by decide) (by decide) (by decide)⟩⟩

/-! ### Claim C10 -/

/-- Claim C10: `sample_tokens` (under its asserted precondition that the
two lists have equal length) returns the empty string, without raising,
whenever the candidate list is empty or the first column's candidate list
is empty; and on every other input on which it returns normally, the
returned string has no gap characters and the optimal path found by the
search has exactly one chosen candidate per column (its length is the
number of columns), the returned string being that path with gaps
stripped. -/
theorem c10_trivial_inputs_and_normal_returns {α : Type}
    [LinearOrderedAddCommMonoid α] (tokens : List (List Char))
    (tws : List (List α)) (gpw : Str → List α → WithTop α)
    (lim : Nat) (dl : Option Nat) (hlen : tokens.length = tws.length) :
    ((tokens = [] ∨ tokens.headD [] = []) →
      sample_tokens tokens tws gpw lim dl = .ok []) ∧
    (∀ s, sample_tokens tokens tws gpw lim dl = .ok s →
      ¬ (tokens = [] ∨ tokens.headD [] = []) →
      (∀ c ∈ s, c ≠ '-') ∧
      (sampleSearch tokens tws gpw lim dl).1.1.length = tokens.length ∧
      s = (sampleSearch tokens tws gpw lim dl).1.1.filter (fun c => c ≠ '-')) := by
  constructor
  · intro h
    rw [sample_tokens, if_neg (by simp [hlen] : ¬ ¬ tokens.length = tws.length),
      if_pos h]
  · intro s hs hne
    rw [sample_tokens] at hs
    rw [if_neg (by simp [hlen])] at hs
    rw [if_neg hne] at hs
    by_cases hmin : (tws.map listMin).any (fun o => o.isNone) = true
    · rw [if_pos hmin] at hs
      exact absurd hs (by simp)
    · rw [if_neg hmin] at hs
      by_cases h1 : (sampleSearch tokens tws gpw lim dl).1.1 = []
      · rw [if_pos h1] at hs
        exact absurd hs (by simp)
      · rw [if_neg h1] at hs
        by_cases h2 : ¬ (sampleSearch tokens tws gpw lim dl).1.1.length = tokens.length
        · rw [if_pos h2] at hs
          exact absurd hs (by simp)
        · rw [if_neg h2] at hs
          by_cases h3 : ¬ (sampleSearch tokens tws gpw lim dl).1.2 < ⊤
          · rw [if_pos h3] at hs
            exact absurd hs (by simp)
          · rw [if_neg h3] at hs
            have hs' : (sampleSearch tokens tws gpw lim dl).1.1.filter
                (fun c => c ≠ '-') = s := by
              injection hs
            refine ⟨?_, not_not.mp h2, hs'.symm⟩
            intro c hc
            rw [← hs'] at hc
            have := List.of_mem_filter hc
            simpa using this

/-- Witness for C10 at the concrete empty input over ℤ. -/
theorem c10_witness :
    (([] : List (List Char)).length = ([] : List (List ℤ)).length) ∧
    sample_tokens ([] : List (List Char)) ([] : List (List ℤ))
      (path_pronounciability_weight [] []) 5 none = .ok [] :=
  ⟨rfl,
   (c10_trivial_inputs_and_normal_returns ([] : List (List Char))
      ([] : List (List ℤ)) (path_pronounciability_weight [] []) 5 none rfl).1
     (Or.inl rfl)⟩

/-! ### Claim C1 -/

/-- Claim C1 is refuted by the code: reaching the memo size limit makes
`recursive_search` return its current PARTIAL path immediately instead of
merely ceasing to cache.  On the concrete grid below (vowel candidates `a`,
`o`, `i`, `u`, weights 0/1 and 10/11), with `memo_size_limit = 1` the
truncated partial path `['o']` (cost 1) beats every explored complete path
(best cost 10), so `sample_tokens` hits its own length assertion and
raises, whereas with a large limit the same input returns "ai".  The limit
therefore truncates the search and changes the result, contradicting both
the claim and the source's own assertions. -/
theorem c1_memo_limit_truncates_search :
    sample_tokens [['a','o'], ['i','u']] ([[0, 1], [10, 11]] : List (List ℤ))
      (path_pronounciability_weight ['a','e','i','o','u'] []) 1 none =
      .exc "Expected optimal path length" ∧
    sample_tokens [['a','o'], ['i','u']] ([[0, 1], [10, 11]] : List (List ℤ))
      (path_pronounciability_weight ['a','e','i','o','u'] []) 1000 none =
      .ok ['a', 'i'] :=
  ⟨by decide, by decide⟩

/-! ### Claim C7: helper lemmas -/

theorem foldl_preserve {β γ : Type*} (Q : β → Prop) (f : β → γ → β)
    (l : List γ) (acc : β) (h0 : Q acc) (hf : ∀ b a, Q b → Q (f b a)) :
    Q (l.foldl f acc) := by
  induction l generalizing acc with
  | nil => exact h0
  | cons a as ih => exact ih (f acc a) (hf acc a h0)

/-- The ghost expansion counter never decreases across a call of the
fuelled search. -/
theorem rsF_expansions_le {α : Type} [LinearOrderedAddCommMonoid α]
    (P : SParams α) (fuel : Nat) :
    ∀ (pos : Nat) (path : Str) (wts : List α) (st : SState α),
      st.expansions ≤ ((rsF P fuel pos path wts st).2).expansions := by
  induction fuel with
  | zero => intro pos path wts st; exact le_refl _
  | succ fuel ih =>
      intro pos path wts st
      cases hm : memoFind st.memo (pos, path) with
      | some v => simp only [rsF, hm]; exact le_refl _
      | none =>
          simp only [rsF, hm]
          by_cases hlim : P.memo_size_limit ≤ st.memo.length
          · rw [if_pos hlim]
          · rw [if_neg hlim]
            by_cases hp : pos < P.min_future_weights.length ∧
                st.best ≤ (if path = [] then 0 else P.get_path_weight path wts) +
                  ((P.min_future_weights.getD pos 0 : α) : WithTop α)
            · rw [if_pos hp]
            · rw [if_neg hp]
              by_cases hterm : P.tokens.length ≤ pos
              · rw [if_pos hterm]
                by_cases hall : path.all (fun c => c = '-') = true
                · rw [if_pos hall]
                · rw [if_neg hall]
              · rw [if_neg hterm]
                apply foldl_preserve
                  (fun acc : (Option Str × WithTop α) × SState α =>
                    st.expansions ≤ acc.2.expansions)
                · exact le_refl _
                · intro b a hb
                  have h1 := ih (pos + 1)
                    (path ++ [(P.tokens.getD pos []).getD a '-'])
                    (wts ++ [(P.token_weights.getD pos []).getD a 0])
                    { b.2 with expansions := b.2.expansions + 1 }
                  exact le_trans (Nat.le_succ_of_le hb) h1

/-- Violations of the scan are preserved by appending characters. -/
theorem scanPath_append_none (vowels consonants : List Char) (a b : List Char)
    (h : scanPath vowels consonants a = none) :
    scanPath vowels consonants (a ++ b) = none := by
  unfold scanPath at *
  rw [List.foldlM_append, h]
  rfl

/-- Form of the cost function on a non-empty path with non-gap content. -/
theorem pp_finite_form {α : Type} [LinearOrderedAddCommMonoid α]
    (vowels consonants : List Char) (path : Str) (w : List α)
    (hne : path ≠ []) (hfne : path.filter (fun c => c ≠ '-') ≠ []) :
    path_pronounciability_weight vowels consonants path w =
      (match scanPath vowels consonants (path.filter (fun c => c ≠ '-')) with
       | none => (⊤ : WithTop α)
       | some _ => ((w.sum : α) : WithTop α)) := by
  simp only [path_pronounciability_weight]
  rw [if_neg hne, if_neg hfne]

theorem suffixSums_headD {α : Type} [AddCommMonoid α] (ms : List α) :
    (suffixSums ms).headD 0 = ms.sum := by
  induction ms with
  | nil => rfl
  | cons m rest ih =>
      show m + (suffixSums rest).headD 0 = (m :: rest).sum
      rw [ih, List.sum_cons]

/-- The entry `p` of the suffix-sum table is the sum of the weights from
stage `p` on. -/
theorem suffixSums_getD {α : Type} [AddCommMonoid α] (ms : List α) (p : Nat)
    (h : p ≤ ms.length) : (suffixSums ms).getD p 0 = (ms.drop p).sum := by
  induction ms generalizing p with
  | nil =>
      have : p = 0 := Nat.le_zero.mp h
      subst this
      rfl
  | cons m rest ih =>
      cases p with
      | zero =>
          show m + (suffixSums rest).headD 0 = (List.drop 0 (m :: rest)).sum
          rw [suffixSums_headD, List.drop_zero, List.sum_cons]
      | succ q =>
          have hq : q ≤ rest.length := Nat.le_of_succ_le_succ h
          show (suffixSums rest).getD q 0 = (rest.drop q).sum
          exact ih q hq

theorem getD_drop' {α : Type} (l : List α) (p q : Nat) (d : α) :
    (l.drop p).getD q d = l.getD (p + q) d := by
  induction l generalizing p with
  | nil => simp
  | cons x xs ih =>
      cases p with
      | zero => rw [Nat.zero_add, List.drop_zero]
      | succ p' =>
          show (xs.drop p').getD q d = (x :: xs).getD (p' + 1 + q) d
          have harith : p' + 1 + q = (p' + q) + 1 := by omega
          rw [harith]
          exact ih p'

/-- Pointwise domination of equal-length lists gives domination of sums. -/
theorem sum_le_sum_getD {α : Type} [LinearOrderedAddCommMonoid α]
    (l1 l2 : List α) (hlen : l1.length = l2.length)
    (h : ∀ q, q < l1.length → l1.getD q 0 ≤ l2.getD q 0) :
    l1.sum ≤ l2.sum := by
  induction l1 generalizing l2 with
  | nil =>
      have : l2 = [] := List.eq_nil_of_length_eq_zero hlen.symm
      subst this
      exact le_refl _
  | cons x xs ih =>
      cases l2 with
      | nil => exact absurd hlen (by simp)
      | cons y ys =>
          have hx : x ≤ y := h 0 (by simp)
          have hxs : xs.sum ≤ ys.sum := by
            refine ih ys (by simpa using hlen) ?_
            intro q hq
            exact h (q + 1) (by simpa using Nat.succ_lt_succ hq)
          simpa using add_le_add hx hxs

/-! ### Claim C7 -/

/-- Claim C7 (amended): (1) a call of `recursive_search` at a stage `p`
before the terminal stage that is resolved neither by a memo hit nor by the
cache-size short-circuit is pruned — it returns the infeasible result and
changes nothing but its own memo entry — exactly when the current cost plus
the precomputed suffix-min lower bound is at least the best cost so far;
(2) when that condition fails (and the stage has candidates) the call does
expand children; and (3) for the cost function
`path_pronounciability_weight`, whenever the partial path already contains
a non-gap character, the current cost plus the suffix-min bound never
exceeds the true cost of any completion, so pruning such a branch never
discards a strictly better solution.  (The original claim, without the
non-gap proviso, is false: entirely-gap partial paths are costed at 0
rather than at their accumulated weight, and with negative candidate
weights the search can discard a strictly better solution — see the
counterexample.) -/
theorem c7_prune_iff_and_admissible_bound {α : Type}
    [LinearOrderedAddCommMonoid α] :
    (∀ (P : SParams α) (pos : Nat) (path : Str) (wts : List α) (st : SState α),
      memoFind st.memo (pos, path) = none →
      st.memo.length < P.memo_size_limit →
      pos < P.min_future_weights.length ∧
        st.best ≤ (if path = [] then 0 else P.get_path_weight path wts) +
          ((P.min_future_weights.getD pos 0 : α) : WithTop α) →
      recursive_search P pos path wts st =
        (([], ⊤), { st with
          memo := if useMemo P.depth_limit path.length then
              memoInsert st.memo (pos, path) ([], ⊤)
            else st.memo })) ∧
    (∀ (P : SParams α) (pos : Nat) (path : Str) (wts : List α) (st : SState α),
      memoFind st.memo (pos, path) = none →
      st.memo.length < P.memo_size_limit →
      pos < P.tokens.length →
      ¬ (pos < P.min_future_weights.length ∧
        st.best ≤ (if path = [] then 0 else P.get_path_weight path wts) +
          ((P.min_future_weights.getD pos 0 : α) : WithTop α)) →
      P.sorted_indices.getD pos [] ≠ [] →
      st.expansions < ((recursive_search P pos path wts st).2).expansions) ∧
    (∀ (vowels consonants : List Char) (pre suf : Str) (pw sw mins : List α)
      (p : Nat) (c : Char),
      c ∈ pre → c ≠ '-' →
      p + sw.length = mins.length →
      (∀ q, q < sw.length → mins.getD (p + q) 0 ≤ sw.getD q 0) →
      path_pronounciability_weight vowels consonants pre pw +
          (((suffixSums mins).getD p 0 : α) : WithTop α) ≤
        path_pronounciability_weight vowels consonants (pre ++ suf) (pw ++ sw)) := by
  refine ⟨?_, ?_, ?_⟩
  · intro P pos path wts st hmemo hlim hp
    have hnle : ¬ P.memo_size_limit ≤ st.memo.length := Nat.not_le.mpr hlim
    have hfuel : P.tokens.length - pos + 1 = Nat.succ (P.tokens.length - pos) := rfl
    rw [recursive_search, hfuel]
    simp only [rsF, hmemo]
    rw [if_neg hnle, if_pos hp]
  · intro P pos path wts st hmemo hlim hpos hnp hne
    have hnle : ¬ P.memo_size_limit ≤ st.memo.length := Nat.not_le.mpr hlim
    have hfuel : P.tokens.length - pos + 1 = Nat.succ (P.tokens.length - pos) := rfl
    rw [recursive_search, hfuel]
    simp only [rsF, hmemo]
    rw [if_neg hnle, if_neg hnp, if_neg (Nat.not_le.mpr hpos)]
    cases hidx : P.sorted_indices.getD pos [] with
    | nil => exact absurd hidx hne
    | cons i0 rest =>
        rw [List.foldl_cons]
        refine Nat.lt_of_succ_le ?_
        have step1 := rsF_expansions_le P (P.tokens.length - pos) (pos + 1)
          (path ++ [(P.tokens.getD pos []).getD i0 '-'])
          (wts ++ [(P.token_weights.getD pos []).getD i0 0])
          { st with expansions := st.expansions + 1 }
        apply foldl_preserve
          (fun acc : (Option Str × WithTop α) × SState α =>
            st.expansions + 1 ≤ acc.2.expansions)
        · exact step1
        · intro b a hb
          have h1 := rsF_expansions_le P (P.tokens.length - pos) (pos + 1)
            (path ++ [(P.tokens.getD pos []).getD a '-'])
            (wts ++ [(P.token_weights.getD pos []).getD a 0])
            { b.2 with expansions := b.2.expansions + 1 }
          exact le_trans (Nat.le_succ_of_le hb) h1
  · intro vowels consonants pre suf pw sw mins p c hcmem hcne hplen hdom
    have hprene : pre ≠ [] := List.ne_nil_of_mem hcmem
    have hcfil : c ∈ pre.filter (fun x => x ≠ '-') :=
      List.mem_filter.mpr ⟨hcmem, by simpa using hcne⟩
    have hFpre : pre.filter (fun x => x ≠ '-') ≠ [] := List.ne_nil_of_mem hcfil
    have hfullne : pre ++ suf ≠ [] := by
      simp [hprene]
    have hFfull : (pre ++ suf).filter (fun x => x ≠ '-') ≠ [] := by
      rw [List.filter_append]
      intro hcontra
      rw [List.append_eq_nil] at hcontra
      exact hFpre hcontra.1
    rw [pp_finite_form vowels consonants (pre ++ suf) (pw ++ sw) hfullne hFfull]
    cases hsfull : scanPath vowels consonants
        ((pre ++ suf).filter (fun x => x ≠ '-')) with
    | none => exact le_top
    | some stf =>
        rw [pp_finite_form vowels consonants pre pw hprene hFpre]
        cases hspre : scanPath vowels consonants
            (pre.filter (fun x => x ≠ '-')) with
        | none =>
            have := scanPath_append_none vowels consonants _
              (suf.filter (fun x => x ≠ '-')) hspre
            rw [← List.filter_append] at this
            rw [this] at hsfull
            exact absurd hsfull (by simp)
        | some stp =>
            have hple : p ≤ mins.length := Nat.le.intro hplen
            have hdroplen : (mins.drop p).length = sw.length := by
              rw [List.length_drop]
              omega
            have hsum : (mins.drop p).sum ≤ sw.sum := by
              refine sum_le_sum_getD (mins.drop p) sw hdroplen ?_
              intro q hq
              rw [getD_drop']
              exact hdom q (hdroplen ▸ hq)
            rw [suffixSums_getD mins p hple, List.sum_append,
              ← WithTop.coe_add, WithTop.coe_le_coe]
            exact add_le_add (le_refl _) hsum

/-- Counterexample for C7 as stated: on the concrete grid
`[[t, -], [s, u], [a]]` with weights `[[-9, -8], [-25, -19], [0]]` and the
pronounceability cost function (vowels `u`, `a`; consonants `t`, `s`), the
search prunes the branch starting with the gap (whose partial path is
costed 0 although its accumulated weight is -8) and returns "tua" of cost
-28, although the selection `['-', 's', 'a']` — one candidate per column —
is feasible with strictly smaller cost -33.  The suffix-min bound at that
branch (0 + (-25)) exceeded the branch's true completions' margin, and
pruning discarded a strictly better solution. -/
theorem c7_counterexample :
    sample_tokens [['t','-'], ['s','u'], ['a']]
      ([[-9, -8], [-25, -19], [0]] : List (List ℤ))
      (path_pronounciability_weight ['u','a'] ['t','s']) 1000000 none =
      .ok ['t','u','a'] ∧
    ('-' ∈ [['t','-'], ['s','u'], ['a']].getD 0 [] ∧
     's' ∈ [['t','-'], ['s','u'], ['a']].getD 1 [] ∧
     'a' ∈ [['t','-'], ['s','u'], ['a']].getD 2 []) ∧
    path_pronounciability_weight ['u','a'] ['t','s'] ['-','s','a']
      ([-8, -25, 0] : List ℤ) = ((-33 : ℤ) : WithTop ℤ) ∧
    path_pronounciability_weight ['u','a'] ['t','s'] ['t','u','a']
      ([-9, -19, 0] : List ℤ) = ((-28 : ℤ) : WithTop ℤ) ∧
    ((-33 : ℤ) : WithTop ℤ) < ((-28 : ℤ) : WithTop ℤ) :=
  ⟨by decide, ⟨by decide, by decide, by decide⟩, by decide, by decide, by decide⟩

/-- Witness for C7 at concrete inputs over ℤ: a pruned call (part 1), an
expanding call (part 2), and an instance of the admissibility bound
(part 3). -/
theorem c7_witness :
    (memoFind ([] : Memo ℤ) (0, []) = none ∧ (0 : Nat) < 7 ∧
      (0 < [(5 : ℤ), 0].length ∧
        ((0 : WithTop ℤ) ≤ (if ([] : Str) = [] then 0 else ⊤) +
          ((([(5 : ℤ), 0].getD 0 0 : ℤ) : WithTop ℤ)))) ∧
      recursive_search
        (⟨[['a']], [[5]], path_pronounciability_weight ['a'] ['b'], [[0]],
          [5, 0], 7, none⟩ : SParams ℤ) 0 [] [] ⟨[], 0, 0⟩ =
        (([], ⊤), ⟨[((0, []), ([], ⊤))], 0, 0⟩)) ∧
    ((0 : Nat) < 1 ∧
      (0 : Nat) <
        ((recursive_search
          (⟨[['a']], [[5]], path_pronounciability_weight ['a'] ['b'], [[0]],
            [5, 0], 7, none⟩ : SParams ℤ) 0 [] [] ⟨[], ⊤, 0⟩).2).expansions) ∧
    ((2 : Nat) + [(3 : ℤ)].length = [(0 : ℤ), 1, 2].length ∧
      path_pronounciability_weight ['a'] ['b'] ['a'] ([(7 : ℤ)]) +
          (((suffixSums [(0 : ℤ), 1, 2]).getD 2 0 : ℤ) : WithTop ℤ) ≤
        path_pronounciability_weight ['a'] ['b'] (['a'] ++ ['b']) ([(7 : ℤ)] ++ [3])) := by
  refine ⟨⟨rfl, by decide, ⟨by decide, by decide⟩, ?_⟩, ⟨by decide, ?_⟩, ⟨by decide, ?_⟩⟩
  · exact c7_prune_iff_and_admissible_bound.1
      (⟨[['a']], [[5]], path_pronounciability_weight ['a'] ['b'], [[0]],
        [5, 0], 7, none⟩ : SParams ℤ) 0 [] [] ⟨[], 0, 0⟩ rfl (by decide)
      ⟨by decide, by decide⟩
  · exact c7_prune_iff_and_admissible_bound.2.1
      (⟨[['a']], [[5]], path_pronounciability_weight ['a'] ['b'], [[0]],
        [5, 0], 7, none⟩ : SParams ℤ) 0 [] [] ⟨[], ⊤, 0⟩ rfl (by decide)
      (by decide) (by decide) (by decide)
  · exact c7_prune_iff_and_admissible_bound.2.2 ['a'] ['b'] ['a'] ['b']
      [(7 : ℤ)] [3] [(0 : ℤ), 1, 2] 2 'a' (by decide) (by decide) (by decide)
      (by decide)

/-! ### MSA helper lemmas (for claims C5 and C6) -/

theorem stripGaps_append (a b : Str) :
    stripGaps (a ++ b) = stripGaps a ++ stripGaps b :=
  List.filter_append a b

theorem stripGaps_eq_self {s : Str} (h : '-' ∉ s) : stripGaps s = s := by
  rw [stripGaps, List.filter_eq_self]
  intro a ha
  simp only [ne_eq, decide_eq_true_eq]
  intro hc
  exact h (hc ▸ ha)

theorem stripGaps_single_gap : stripGaps ['-'] = [] := rfl

theorem take_succ_getD {α : Type} (l : List α) (i : Nat) (d : α)
    (h : i < l.length) : l.take (i + 1) = l.take i ++ [l.getD i d] := by
  rw [List.take_succ, List.getElem?_eq_getElem h, List.getD_eq_getElem l d h]
  rfl

theorem getD_mem' {α : Type} (l : List α) (i : Nat) (d : α)
    (h : i < l.length) : l.getD i d ∈ l := by
  rw [List.getD_eq_getElem l d h]
  exact List.getElem_mem h

/-- The first column of the score matrix: `dp[i][0] = i * gap_penalty`. -/
theorem nwScore_zero_right (s1 s2 : Str) (gp ms mp : Int) (i : Nat) :
    nwScore s1 s2 gp ms mp i 0 = (i : Int) * gp := by
  cases i with
  | zero => simp [nwScore]
  | succ n => simp [nwScore]

/-- Master lemma for the traceback: both aligned outputs strip back to the
consumed parts of their inputs, they have equal length, and (for gap-free
inputs) no position holds a gap in both outputs. -/
theorem traceback_spec (s1 s2 : Str) (gp ms mp : Int) :
    ∀ (n i j : Nat), i + j ≤ n → i ≤ s1.length → j ≤ s2.length →
      stripGaps (traceback s1 s2 gp ms mp i j).1 = stripGaps (s1.take i) ∧
      stripGaps (traceback s1 s2 gp ms mp i j).2 = stripGaps (s2.take j) ∧
      (traceback s1 s2 gp ms mp i j).1.length =
        (traceback s1 s2 gp ms mp i j).2.length ∧
      ('-' ∉ s1 → '-' ∉ s2 →
        ∀ p ∈ (traceback s1 s2 gp ms mp i j).1.zip
          (traceback s1 s2 gp ms mp i j).2, ¬ (p.1 = '-' ∧ p.2 = '-')) := by
  intro n
  induction n with
  | zero =>
      intro i j hn hi hj
      have hi0 : i = 0 := by omega
      have hj0 : j = 0 := by omega
      subst hi0
      subst hj0
      rw [traceback]
      simp [stripGaps]
  | succ n ih =>
      intro i j hn hi hj
      rw [traceback]
      by_cases h0 : i = 0 ∧ j = 0
      case pos =>
        rw [if_pos h0]
        obtain ⟨hi0, hj0⟩ := h0
        subst hi0
        subst hj0
        simp [stripGaps]
      rw [if_neg h0]
      by_cases hdiag : 0 < i ∧ 0 < j ∧ nwScore s1 s2 gp ms mp i j =
          nwScore s1 s2 gp ms mp (i - 1) (j - 1) +
            (if s1.getD (i - 1) ' ' = s2.getD (j - 1) ' ' then ms else mp)
      case pos =>
        rw [if_pos hdiag]
        obtain ⟨hipos, hjpos, -⟩ := hdiag
        obtain ⟨ih1, ih2, ihlen, ihzip⟩ :=
          ih (i - 1) (j - 1) (by omega) (by omega) (by omega)
        have hieq : i = (i - 1) + 1 := by omega
        have hjeq : j = (j - 1) + 1 := by omega
        have ht1 : s1.take i = s1.take (i - 1) ++ [s1.getD (i - 1) ' '] := by
          rw [hieq]
          exact take_succ_getD s1 (i - 1) ' ' (by omega)
        have ht2 : s2.take j = s2.take (j - 1) ++ [s2.getD (j - 1) ' '] := by
          rw [hjeq]
          exact take_succ_getD s2 (j - 1) ' ' (by omega)
        refine ⟨?_, ?_, ?_, ?_⟩
        · rw [stripGaps_append, ih1, ht1, stripGaps_append]
        · rw [stripGaps_append, ih2, ht2, stripGaps_append]
        · simp [ihlen]
        · intro hg1 hg2 p hp
          rw [List.zip_append ihlen] at hp
          rcases List.mem_append.mp hp with hin | hin
          · exact ihzip hg1 hg2 p hin
          · have hpe : p = (s1.getD (i - 1) ' ', s2.getD (j - 1) ' ') := by
              simpa using hin
            have hc1 : s1.getD (i - 1) ' ' ∈ s1 := getD_mem' s1 (i - 1) ' ' (by omega)
            intro hcontra
            rw [hpe] at hcontra
            exact hg1 (hcontra.1 ▸ hc1)
      rw [if_neg hdiag]
      by_cases hup : 0 < i ∧ nwScore s1 s2 gp ms mp i j =
          nwScore s1 s2 gp ms mp (i - 1) j + gp
      case pos =>
        rw [if_pos hup]
        obtain ⟨hipos, -⟩ := hup
        obtain ⟨ih1, ih2, ihlen, ihzip⟩ :=
          ih (i - 1) j (by omega) (by omega) hj
        have hieq : i = (i - 1) + 1 := by omega
        have ht1 : s1.take i = s1.take (i - 1) ++ [s1.getD (i - 1) ' '] := by
          rw [hieq]
          exact take_succ_getD s1 (i - 1) ' ' (by omega)
        refine ⟨?_, ?_, ?_, ?_⟩
        · rw [stripGaps_append, ih1, ht1, stripGaps_append]
        · rw [stripGaps_append, ih2]
          simp [stripGaps]
        · simp [ihlen]
        · intro hg1 hg2 p hp
          rw [List.zip_append ihlen] at hp
          rcases List.mem_append.mp hp with hin | hin
          · exact ihzip hg1 hg2 p hin
          · have hpe : p = (s1.getD (i - 1) ' ', '-') := by simpa using hin
            have hc1 : s1.getD (i - 1) ' ' ∈ s1 := getD_mem' s1 (i - 1) ' ' (by omega)
            intro hcontra
            rw [hpe] at hcontra
            exact hg1 (hcontra.1 ▸ hc1)
      rw [if_neg hup]
      by_cases hleft : 0 < j
      case pos =>
        rw [if_pos hleft]
        obtain ⟨ih1, ih2, ihlen, ihzip⟩ :=
          ih i (j - 1) (by omega) hi (by omega)
        have hjeq : j = (j - 1) + 1 := by omega
        have ht2 : s2.take j = s2.take (j - 1) ++ [s2.getD (j - 1) ' '] := by
          rw [hjeq]
          exact take_succ_getD s2 (j - 1) ' ' (by omega)
        refine ⟨?_, ?_, ?_, ?_⟩
        · rw [stripGaps_append, ih1]
          simp [stripGaps]
        · rw [stripGaps_append, ih2, ht2, stripGaps_append]
        · simp [ihlen]
        · intro hg1 hg2 p hp
          rw [List.zip_append ihlen] at hp
          rcases List.mem_append.mp hp with hin | hin
          · exact ihzip hg1 hg2 p hin
          · have hpe : p = ('-', s2.getD (j - 1) ' ') := by simpa using hin
            have hc2 : s2.getD (j - 1) ' ' ∈ s2 := getD_mem' s2 (j - 1) ' ' (by omega)
            intro hcontra
            rw [hpe] at hcontra
            exact hg2 (hcontra.2 ▸ hc2)
      rw [if_neg hleft]
      exfalso
      have hj0 : j = 0 := by omega
      subst hj0
      have hi0 : 0 < i := by
        rcases Nat.eq_zero_or_pos i with h | h
        · exact absurd ⟨h, rfl⟩ h0
        · exact h
      apply hup
      refine ⟨hi0, ?_⟩
      rw [nwScore_zero_right, nwScore_zero_right]
      have : (i : Int) = ((i - 1 : Nat) : Int) + 1 := by omega
      rw [this]
      ring

/-- The two aligned strings of `pairwise_alignment` strip back to their
inputs, have equal length, and (for gap-free inputs) never hold a gap at
the same position. -/
theorem pairwise_alignment_spec (s1 s2 : Str) (gp ms mp : Int) :
    stripGaps (pairwise_alignment s1 s2 gp ms mp).1 = stripGaps s1 ∧
    stripGaps (pairwise_alignment s1 s2 gp ms mp).2 = stripGaps s2 ∧
    (pairwise_alignment s1 s2 gp ms mp).1.length =
      (pairwise_alignment s1 s2 gp ms mp).2.length ∧
    ('-' ∉ s1 → '-' ∉ s2 →
      ∀ p ∈ (pairwise_alignment s1 s2 gp ms mp).1.zip
        (pairwise_alignment s1 s2 gp ms mp).2, ¬ (p.1 = '-' ∧ p.2 = '-')) := by
  have h := traceback_spec s1 s2 gp ms mp (s1.length + s2.length)
    s1.length s2.length (le_refl _) (le_refl _) (le_refl _)
  rw [List.take_length, List.take_length] at h
  exact h

theorem stripGaps_cons_gap (cs : Str) : stripGaps ('-' :: cs) = stripGaps cs := by
  simp [stripGaps]

theorem stripGaps_cons_char (c : Char) (cs : Str) (hc : ¬ c = '-') :
    stripGaps (c :: cs) = c :: stripGaps cs := by
  simp [stripGaps, hc]

theorem propagateRow_gap (cs : Str) (row : Str) :
    propagateRow ('-' :: cs) row = '-' :: propagateRow cs row := rfl

theorem propagateRow_char_nil (c : Char) (cs : Str) (hc : ¬ c = '-') :
    propagateRow (c :: cs) [] = propagateRow cs [] := by
  rw [propagateRow.eq_def]
  dsimp only
  rw [if_neg hc]

theorem propagateRow_char_cons (c : Char) (cs : Str) (r : Char) (rs : Str)
    (hc : ¬ c = '-') :
    propagateRow (c :: cs) (r :: rs) = r :: propagateRow cs rs := by
  rw [propagateRow.eq_def]
  dsimp only
  rw [if_neg hc]

/-- Inserting the consensus gaps into a row does not change its gap-free
content. -/
theorem propagateRow_strip (a1 : Str) :
    ∀ row : Str, stripGaps (propagateRow a1 row) = stripGaps row := by
  induction a1 with
  | nil => intro row; rfl
  | cons c cs ih =>
      intro row
      by_cases hc : c = '-'
      · subst hc
        rw [propagateRow_gap, stripGaps_cons_gap]
        exact ih row
      · cases row with
        | nil => rw [propagateRow_char_nil c cs hc]; exact ih []
        | cons r rs =>
            rw [propagateRow_char_cons c cs r rs hc]
            by_cases hr : r = '-'
            · subst hr
              rw [stripGaps_cons_gap, stripGaps_cons_gap]
              exact ih rs
            · rw [stripGaps_cons_char r _ hr, stripGaps_cons_char r _ hr, ih rs]

/-- When the row length equals the number of non-gap characters of the
aligned consensus, gap propagation yields a row of the consensus's aligned
length. -/
theorem propagateRow_length (a1 : Str) :
    ∀ row : Str, (stripGaps a1).length = row.length →
      (propagateRow a1 row).length = a1.length := by
  induction a1 with
  | nil =>
      intro row h
      have hr0 : row = [] := List.eq_nil_of_length_eq_zero (by rw [← h]; rfl)
      subst hr0
      rfl
  | cons c cs ih =>
      intro row h
      by_cases hc : c = '-'
      · subst hc
        rw [stripGaps_cons_gap] at h
        rw [propagateRow_gap]
        show (propagateRow cs row).length + 1 = cs.length + 1
        rw [ih row h]
      · rw [stripGaps_cons_char c cs hc] at h
        have h' : (stripGaps cs).length + 1 = row.length := by simpa using h
        cases row with
        | nil => exact absurd h' (by simp)
        | cons r rs =>
            rw [propagateRow_char_cons c cs r rs hc]
            show (propagateRow cs rs).length + 1 = cs.length + 1
            have hrs : (stripGaps cs).length = rs.length := by
              have : rs.length + 1 = (r :: rs).length := rfl
              omega
            rw [ih rs hrs]

/-- Pointwise description of gap propagation: gap positions of the aligned
consensus become gaps, and every other position holds the row character
indexed by the number of preceding non-gap positions. -/
theorem propagateRow_getD (a1 : Str) :
    ∀ (row : Str) (p : Nat), p < a1.length →
      (stripGaps a1).length = row.length →
      (a1.getD p '-' = '-' → (propagateRow a1 row).getD p '-' = '-') ∧
      (a1.getD p '-' ≠ '-' →
        (propagateRow a1 row).getD p '-' =
          row.getD (stripGaps (a1.take p)).length '-') := by
  induction a1 with
  | nil => intro row p hp _; exact absurd hp (by simp)
  | cons c cs ih =>
      intro row p hp hlen
      by_cases hc : c = '-'
      · subst hc
        rw [stripGaps_cons_gap] at hlen
        rw [propagateRow_gap]
        cases p with
        | zero => exact ⟨fun _ => rfl, fun hne => absurd rfl hne⟩
        | succ q =>
            have hq : q < cs.length := by simpa using hp
            obtain ⟨ih1, ih2⟩ := ih row q hq hlen
            refine ⟨fun hg => ?_, fun hg => ?_⟩
            · exact ih1 hg
            · have hstep : stripGaps (('-' :: cs).take (q + 1)) =
                  stripGaps (cs.take q) := by
                rw [List.take_succ_cons, stripGaps_cons_gap]
              rw [hstep]
              exact ih2 hg
      · rw [stripGaps_cons_char c cs hc] at hlen
        have hlen' : (stripGaps cs).length + 1 = row.length := by simpa using hlen
        cases row with
        | nil => exact absurd hlen' (by simp)
        | cons r rs =>
            rw [propagateRow_char_cons c cs r rs hc]
            cases p with
            | zero => exact ⟨fun hg => absurd hg hc, fun _ => rfl⟩
            | succ q =>
                have hq : q < cs.length := by simpa using hp
                have hrs : (stripGaps cs).length = rs.length := by
                  have : rs.length + 1 = (r :: rs).length := rfl
                  omega
                obtain ⟨ih1, ih2⟩ := ih rs q hq hrs
                refine ⟨fun hg => ?_, fun hg => ?_⟩
                · exact ih1 hg
                · have hstep : stripGaps ((c :: cs).take (q + 1)) =
                      c :: stripGaps (cs.take q) := by
                    rw [List.take_succ_cons, stripGaps_cons_char c _ hc]
                  rw [hstep]
                  show (propagateRow cs rs).getD q '-' =
                    rs.getD (stripGaps (cs.take q)).length '-'
                  exact ih2 hg

/-- Every row length is bounded by the running maximum. -/
theorem maxLen_le (rows : List Str) :
    ∀ r ∈ rows, r.length ≤ maxLen rows := by
  have haux : ∀ (l : List Str) (a : Nat),
      a ≤ l.foldl (fun m s => max m s.length) a := by
    intro l
    induction l with
    | nil => intro a; exact le_refl _
    | cons x xs ih =>
        intro a
        exact le_trans (le_max_left a x.length) (ih (max a x.length))
  have hmem : ∀ (l : List Str) (a : Nat), ∀ r ∈ l,
      r.length ≤ l.foldl (fun m s => max m s.length) a := by
    intro l
    induction l with
    | nil => intro a r hr; exact absurd hr (by simp)
    | cons x xs ih =>
        intro a r hr
        rcases List.mem_cons.mp hr with h | h
        · subst h
          exact le_trans (le_max_right a r.length) (haux xs (max a r.length))
        · exact ih (max a x.length) r h
  intro r hr
  exact hmem rows 0 r hr

/-- The running maximum of a non-empty list of equal-length rows is that
common length. -/
theorem maxLen_eq (rows : List Str) (L : Nat) (hne : rows ≠ [])
    (h : ∀ r ∈ rows, r.length = L) : maxLen rows = L := by
  have haux : ∀ (l : List Str) (a : Nat), l ≠ [] → (∀ r ∈ l, r.length = L) →
      l.foldl (fun m s => max m s.length) a = max a L := by
    intro l
    induction l with
    | nil => intro a hne' _; exact absurd rfl hne'
    | cons x xs ih =>
        intro a _ hall
        have hx : x.length = L := hall x (by simp)
        cases hxs : xs with
        | nil =>
            simp [List.foldl, hx]
        | cons y ys =>
            have h2 := ih (max a x.length) (by rw [hxs]; simp) (fun r hr =>
              hall r (List.mem_cons_of_mem x hr))
            rw [hxs] at h2
            rw [List.foldl_cons, h2, hx, max_assoc, max_self]
  have := haux rows 0 hne h
  rw [maxLen, this]
  exact Nat.zero_max L

theorem consensus_length (rows : List Str) :
    (consensusOf rows).length = maxLen rows := by
  simp [consensusOf]

/-- When no alignment column consists solely of gaps, the consensus string
is gap-free. -/
theorem consensus_no_gap (rows : List Str)
    (h : ∀ p < maxLen rows, ∃ r ∈ rows, r.getD p '-' ≠ '-') :
    '-' ∉ consensusOf rows := by
  intro hmem
  rw [consensusOf] at hmem
  obtain ⟨p, hp, hchar⟩ := List.mem_map.mp hmem
  have hpm : p < maxLen rows := List.mem_range.mp hp
  obtain ⟨r, hr, hrg⟩ := h p hpm
  have hcol : r.getD p '-' ∈ (colCharsAt rows p).filter (fun c => c ≠ '-') := by
    rw [List.mem_filter]
    exact ⟨List.mem_map.mpr ⟨r, hr, rfl⟩, by simpa using hrg⟩
  cases hfil : (colCharsAt rows p).filter (fun c => c ≠ '-') with
  | nil => rw [hfil] at hcol; exact absurd hcol (by simp)
  | cons c cs =>
      rw [hfil] at hchar
      have hcne : c ≠ '-' := by
        have : c ∈ (colCharsAt rows p).filter (fun c => c ≠ '-') := by
          rw [hfil]; exact List.mem_cons_self c cs
        simpa using (List.mem_filter.mp this).2
      exact hcne hchar

/-- A non-gap character at position `p` makes the gap-stripped content of
the first `p` characters strictly shorter than that of the whole string. -/
theorem strip_take_lt (l : Str) (p : Nat) (hp : p < l.length)
    (hg : l.getD p '-' ≠ '-') :
    (stripGaps (l.take p)).length < (stripGaps l).length := by
  conv_rhs => rw [← List.take_append_drop p l]
  rw [stripGaps_append, List.length_append]
  have hdrop : l.drop p = l.getD p '-' :: l.drop (p + 1) := by
    rw [List.drop_eq_getElem_cons hp, List.getD_eq_getElem l '-' hp]
  rw [hdrop, stripGaps_cons_char _ _ hg]
  simp

/-- The combined effect of gap propagation plus appending the newly aligned
sequence: the invariants of the progressive alignment are preserved.  Here
`a1`, `a2` stand for the two outputs of the pairwise alignment of the
consensus against the new sequence. -/
theorem rows2_spec (inputs rows : List Str) (seq a1 a2 : Str)
    (hF : List.Forall₂ (fun inp row => stripGaps row = inp) inputs rows)
    (hL : ∀ r ∈ rows, r.length = maxLen rows)
    (hG : ∀ p < maxLen rows, ∃ r ∈ rows, r.getD p '-' ≠ '-')
    (hstrip1len : (stripGaps a1).length = maxLen rows)
    (hstrip2 : stripGaps a2 = seq)
    (hlen12 : a1.length = a2.length)
    (hzip : ∀ p ∈ a1.zip a2, ¬ (p.1 = '-' ∧ p.2 = '-')) :
    (rows.map (propagateRow a1) ++ [a2] ≠ []) ∧
    List.Forall₂ (fun inp row => stripGaps row = inp) (inputs ++ [seq])
      (rows.map (propagateRow a1) ++ [a2]) ∧
    (∀ r ∈ rows.map (propagateRow a1) ++ [a2], r.length = a1.length) ∧
    (∀ p < a1.length, ∃ r ∈ rows.map (propagateRow a1) ++ [a2],
      r.getD p '-' ≠ '-') := by
  refine ⟨by simp, ?_, ?_, ?_⟩
  · refine List.rel_append ?_ ?_
    · rw [List.forall₂_map_right_iff]
      refine List.Forall₂.imp ?_ hF
      intro a b h
      rw [propagateRow_strip a1 b]
      exact h
    · exact List.forall₂_cons.mpr ⟨hstrip2, List.Forall₂.nil⟩
  · intro r hr
    rcases List.mem_append.mp hr with hin | hin
    · obtain ⟨r0, hr0, hmap⟩ := List.mem_map.mp hin
      rw [← hmap]
      exact propagateRow_length a1 r0 (by rw [hstrip1len, hL r0 hr0])
    · have : r = a2 := by simpa using hin
      rw [this, hlen12]
  · intro p hp
    by_cases hgap : a1.getD p '-' = '-'
    · have hp2 : p < a2.length := hlen12 ▸ hp
      have hplen : p < (a1.zip a2).length := by
        rw [List.length_zip]
        omega
      have hmem : (a1.zip a2)[p] ∈ a1.zip a2 := List.getElem_mem hplen
      have hnb := hzip _ hmem
      rw [List.getElem_zip] at hnb
      refine ⟨a2, by simp, ?_⟩
      intro hcontra
      apply hnb
      constructor
      · show a1[p] = '-'
        rw [← List.getD_eq_getElem a1 '-' hp]
        exact hgap
      · show a2[p] = '-'
        rw [← List.getD_eq_getElem a2 '-' hp2]
        exact hcontra
    · have hq : (stripGaps (a1.take p)).length < maxLen rows := by
        rw [← hstrip1len]
        exact strip_take_lt a1 p hp hgap
      obtain ⟨r0, hr0, hr0g⟩ := hG _ hq
      have hlenr0 : (stripGaps a1).length = r0.length := by
        rw [hstrip1len, hL r0 hr0]
      obtain ⟨-, h2⟩ := propagateRow_getD a1 r0 p hp hlenr0
      refine ⟨propagateRow a1 r0,
        List.mem_append_left _ (List.mem_map.mpr ⟨r0, hr0, rfl⟩), ?_⟩
      rw [h2 hgap]
      exact hr0g

/-- One progressive step of `msa` preserves the alignment invariants: the
result is non-empty, each row strips back to its input, all rows share a
common length, and no column is entirely gaps. -/
theorem msaStep_preserves (gp ms mp : Int) (inputs rows : List Str) (seq : Str)
    (_hrows : rows ≠ [])
    (hF : List.Forall₂ (fun inp row => stripGaps row = inp) inputs rows)
    (hL : ∀ r ∈ rows, r.length = maxLen rows)
    (hG : ∀ p < maxLen rows, ∃ r ∈ rows, r.getD p '-' ≠ '-')
    (hseq : '-' ∉ seq) :
    (msaStep gp ms mp rows seq ≠ []) ∧
    List.Forall₂ (fun inp row => stripGaps row = inp) (inputs ++ [seq])
      (msaStep gp ms mp rows seq) ∧
    (∀ r ∈ msaStep gp ms mp rows seq,
      r.length = maxLen (msaStep gp ms mp rows seq)) ∧
    (∀ p < maxLen (msaStep gp ms mp rows seq),
      ∃ r ∈ msaStep gp ms mp rows seq, r.getD p '-' ≠ '-') := by
  obtain ⟨hA1, hA2, hALen, hAzip⟩ :=
    pairwise_alignment_spec (consensusOf rows) seq gp ms mp
  have hconsg : '-' ∉ consensusOf rows := consensus_no_gap rows hG
  have hstrip1 : stripGaps (pairwise_alignment (consensusOf rows) seq gp ms mp).1 =
      consensusOf rows := by rw [hA1, stripGaps_eq_self hconsg]
  have hstrip1len :
      (stripGaps (pairwise_alignment (consensusOf rows) seq gp ms mp).1).length =
        maxLen rows := by rw [hstrip1, consensus_length]
  have hstrip2 : stripGaps (pairwise_alignment (consensusOf rows) seq gp ms mp).2 =
      seq := by rw [hA2, stripGaps_eq_self hseq]
  obtain ⟨hne2, hF2, hL2, hG2⟩ := rows2_spec inputs rows seq
    (pairwise_alignment (consensusOf rows) seq gp ms mp).1
    (pairwise_alignment (consensusOf rows) seq gp ms mp).2
    hF hL hG hstrip1len hstrip2 hALen (hAzip hconsg hseq)
  have hmax2 : maxLen (rows.map
      (propagateRow (pairwise_alignment (consensusOf rows) seq gp ms mp).1) ++
      [(pairwise_alignment (consensusOf rows) seq gp ms mp).2]) =
      (pairwise_alignment (consensusOf rows) seq gp ms mp).1.length :=
    maxLen_eq _ _ hne2 hL2
  have hpad : msaStep gp ms mp rows seq = rows.map
      (propagateRow (pairwise_alignment (consensusOf rows) seq gp ms mp).1) ++
      [(pairwise_alignment (consensusOf rows) seq gp ms mp).2] := by
    show (rows.map
        (propagateRow (pairwise_alignment (consensusOf rows) seq gp ms mp).1) ++
        [(pairwise_alignment (consensusOf rows) seq gp ms mp).2]).map
        (fun s => s ++ List.replicate ((maxLen (rows.map
          (propagateRow (pairwise_alignment (consensusOf rows) seq gp ms mp).1) ++
          [(pairwise_alignment (consensusOf rows) seq gp ms mp).2])) - s.length)
          '-') = _
    have hid : ∀ s ∈ rows.map
        (propagateRow (pairwise_alignment (consensusOf rows) seq gp ms mp).1) ++
        [(pairwise_alignment (consensusOf rows) seq gp ms mp).2],
        s ++ List.replicate ((maxLen (rows.map
          (propagateRow (pairwise_alignment (consensusOf rows) seq gp ms mp).1) ++
          [(pairwise_alignment (consensusOf rows) seq gp ms mp).2])) - s.length)
          '-' = id s := by
      intro s hs
      rw [hmax2, hL2 s hs]
      simp
    rw [List.map_congr_left hid, List.map_id]
  rw [hpad]
  rw [hpad] at *
  exact ⟨hne2, hF2, by rw [hmax2]; exact hL2, by rw [hmax2]; exact hG2⟩

/-- The alignment invariants hold after folding any number of progressive
steps over gap-free new sequences. -/
theorem msa_fold_inv (gp ms mp : Int) :
    ∀ (rest inputs rows : List Str),
      rows ≠ [] →
      List.Forall₂ (fun inp row => stripGaps row = inp) inputs rows →
      (∀ r ∈ rows, r.length = maxLen rows) →
      (∀ p < maxLen rows, ∃ r ∈ rows, r.getD p '-' ≠ '-') →
      (∀ s ∈ rest, '-' ∉ s) →
      List.Forall₂ (fun inp row => stripGaps row = inp) (inputs ++ rest)
        (rest.foldl (msaStep gp ms mp) rows) := by
  intro rest
  induction rest with
  | nil =>
      intro inputs rows _ hF _ _ _
      simpa using hF
  | cons seq rest ih =>
      intro inputs rows hrows hF hL hG hgap
      obtain ⟨hne2, hF2, hL2, hG2⟩ := msaStep_preserves gp ms mp inputs rows seq
        hrows hF hL hG (hgap seq (by simp))
      have happ : inputs ++ seq :: rest = (inputs ++ [seq]) ++ rest := by simp
      rw [List.foldl_cons, happ]
      exact ih (inputs ++ [seq]) (msaStep gp ms mp rows seq) hne2 hF2 hL2 hG2
        (fun s hs => hgap s (List.mem_cons_of_mem seq hs))

/-! ### Claim C5 -/

/-- Claim C5 (amended): for every non-empty list of input strings NONE OF
WHICH contains the gap marker, removing all gap markers from the i-th
aligned sequence produced by `msa` reproduces the i-th original input
string exactly (the `Forall₂` relates inputs and rows pairwise, in order).
(The original claim, over arbitrary strings, fails when an input itself
contains the gap character: see the counterexample.) -/
theorem c5_alignment_round_trip (gp ms mp : Int) (seqs : List Str)
    (h1 : seqs ≠ []) (h2 : ∀ s ∈ seqs, '-' ∉ s) :
    List.Forall₂ (fun inp row => stripGaps row = inp) seqs
      (msa seqs gp ms mp) := by
  cases seqs with
  | nil => exact absurd rfl h1
  | cons s0 rest =>
      have hbase_gap : '-' ∉ s0 := h2 s0 (by simp)
      have hF0 : List.Forall₂ (fun inp row => stripGaps row = inp) [s0] [s0] :=
        List.forall₂_cons.mpr ⟨stripGaps_eq_self hbase_gap, List.Forall₂.nil⟩
      have hL0 : ∀ r ∈ [s0], r.length = maxLen [s0] := by
        intro r hr
        have : r = s0 := by simpa using hr
        subst this
        simp [maxLen]
      have hG0 : ∀ p < maxLen [s0], ∃ r ∈ [s0], r.getD p '-' ≠ '-' := by
        intro p hp
        have hps : p < s0.length := by simpa [maxLen] using hp
        refine ⟨s0, by simp, ?_⟩
        have : s0.getD p '-' ∈ s0 := getD_mem' s0 p '-' hps
        intro hcontra
        exact hbase_gap (hcontra ▸ this)
      have := msa_fold_inv gp ms mp rest [s0] [s0] (by simp) hF0 hL0 hG0
        (fun s hs => h2 s (List.mem_cons_of_mem s0 hs))
      simpa [msa] using this

/-- Counterexample for C5 as stated: the single-element input `["-"]` is
returned unchanged by `msa`, and stripping its gaps yields `""`, not the
original string. -/
theorem c5_counterexample :
    ¬ List.Forall₂ (fun inp row => stripGaps row = inp) [['-']]
      (msa [['-']] (-1) 2 (-1)) := by
  intro h
  have hmsa : msa [['-']] (-1) 2 (-1) = [['-']] := rfl
  rw [hmsa] at h
  have h1 := (List.forall₂_cons.mp h).1
  exact absurd h1 (by decide)

/-- Witness for C5 at the concrete gap-free input `["ab", "b"]`. -/
theorem c5_witness :
    ((([['a','b'], ['b']] : List Str) ≠ []) ∧
      (∀ s ∈ ([['a','b'], ['b']] : List Str), '-' ∉ s)) ∧
    List.Forall₂ (fun inp row => stripGaps row = inp) [['a','b'], ['b']]
      (msa [['a','b'], ['b']] (-1) 2 (-1)) :=
  ⟨⟨by decide, by decide⟩,
    c5_alignment_round_trip (-1) 2 (-1) [['a','b'], ['b']] (by decide) (by decide)⟩

/-! ### Claim C6 -/

/-- Claim C6: for every non-empty input list, all aligned sequences
returned by `msa` have identical length (each row's length is the common
running maximum); and this invariant holds after every progressive step
(gap propagation followed by right-padding): the rows of `msaStep` all have
the common length, for arbitrary intermediate states. -/
theorem c6_aligned_lengths_equal (gp ms mp : Int) :
    (∀ (rows : List Str) (seq : Str), ∀ r ∈ msaStep gp ms mp rows seq,
      r.length = maxLen (msaStep gp ms mp rows seq)) ∧
    (∀ seqs : List Str, seqs ≠ [] →
      ∀ r ∈ msa seqs gp ms mp, r.length = maxLen (msa seqs gp ms mp)) := by
  have hstep : ∀ (rows : List Str) (seq : Str), ∀ r ∈ msaStep gp ms mp rows seq,
      r.length = maxLen (msaStep gp ms mp rows seq) := by
    intro rows seq
    have hbody : msaStep gp ms mp rows seq =
        (propagate_gaps_to_all rows
          (pairwise_alignment (consensusOf rows) seq gp ms mp).1 ++
          [(pairwise_alignment (consensusOf rows) seq gp ms mp).2]).map
          (fun s => s ++ List.replicate ((maxLen
            (propagate_gaps_to_all rows
              (pairwise_alignment (consensusOf rows) seq gp ms mp).1 ++
              [(pairwise_alignment (consensusOf rows) seq gp ms mp).2])) -
              s.length) '-') := rfl
    intro r hr
    rw [hbody] at hr
    obtain ⟨r0, hr0, hpadded⟩ := List.mem_map.mp hr
    have hlen0 : r0.length ≤ maxLen
        (propagate_gaps_to_all rows
          (pairwise_alignment (consensusOf rows) seq gp ms mp).1 ++
          [(pairwise_alignment (consensusOf rows) seq gp ms mp).2]) :=
      maxLen_le _ r0 hr0
    have hrlen : r.length = maxLen
        (propagate_gaps_to_all rows
          (pairwise_alignment (consensusOf rows) seq gp ms mp).1 ++
          [(pairwise_alignment (consensusOf rows) seq gp ms mp).2]) := by
      rw [← hpadded]
      simp
      omega
    have hall : ∀ x ∈ msaStep gp ms mp rows seq, x.length = maxLen
        (propagate_gaps_to_all rows
          (pairwise_alignment (consensusOf rows) seq gp ms mp).1 ++
          [(pairwise_alignment (consensusOf rows) seq gp ms mp).2]) := by
      intro x hx
      rw [hbody] at hx
      obtain ⟨x0, hx0, hxp⟩ := List.mem_map.mp hx
      have := maxLen_le _ x0 hx0
      rw [← hxp]
      simp
      omega
    have hne : msaStep gp ms mp rows seq ≠ [] := by
      rw [hbody]
      simp
    rw [hrlen, (maxLen_eq _ _ hne hall).symm]
  refine ⟨hstep, ?_⟩
  have haux : ∀ (ts rows : List Str),
      (∀ r ∈ rows, r.length = maxLen rows) →
      ∀ r ∈ ts.foldl (msaStep gp ms mp) rows,
        r.length = maxLen (ts.foldl (msaStep gp ms mp) rows) := by
    intro ts
    induction ts with
    | nil => intro rows h; simpa using h
    | cons t ts ih =>
        intro rows _
        rw [List.foldl_cons]
        exact ih (msaStep gp ms mp rows t) (hstep rows t)
  intro seqs hne
  cases seqs with
  | nil => exact absurd rfl hne
  | cons s0 rest =>
      have hbase : ∀ r ∈ [s0], r.length = maxLen [s0] := by
        intro r hr
        have : r = s0 := by simpa using hr
        subst this
        simp [maxLen]
      exact haux rest [s0] hbase

/-- Witness for C6 at the concrete input `["ab", "b"]`. -/
theorem c6_witness :
    (([['a','b'], ['b']] : List Str) ≠ []) ∧
    (∀ r ∈ msa [['a','b'], ['b']] (-1) 2 (-1),
      r.length = maxLen (msa [['a','b'], ['b']] (-1) 2 (-1))) :=
  ⟨by decide,
    (c6_aligned_lengths_equal (-1) 2 (-1)).2 [['a','b'], ['b']] (by decide)⟩

end Interla
